import Mathlib

/-!
Verification of the `turf` interactive job-queue dashboard (`src/app.rs`).

Strings are modelled at character granularity as `List Char`: Rust's
`char_indices` byte positions biject monotonically with character positions,
and every slice the code takes is bounded by such positions, so `List.take` /
`List.drop` on the character list is a faithful model of the byte slicing
(and makes "splits only at character boundaries" hold by construction).
-/

namespace Turf

/-- The filter predicate on character positions used inside `chunked_string`
(`src/app.rs` 671-678): in Rust,
`if i > first_chunk_size { chunk_size > 0 && (i - first_chunk_size) % chunk_size == 0 }
 else { i == 0 || i == first_chunk_size }`. -/
def keepIdx (first_chunk_size chunk_size : Nat) (i : Nat) : Bool :=
  if i > first_chunk_size then
    decide (chunk_size > 0) && decide ((i - first_chunk_size) % chunk_size = 0)
  else
    decide (i = 0) || decide (i = first_chunk_size)

/-- The `stepped_indices` vector of `chunked_string` (`src/app.rs` 668-680):
the character positions of `s` kept by `keepIdx`, in increasing order. -/
def chunkIdxs (s : List Char) (first_chunk_size chunk_size : Nat) : List Nat :=
  (List.range s.length).filter (keepIdx first_chunk_size chunk_size)

/-- `chunked_string` (`src/app.rs` 667-686): slices of `s` between consecutive
kept positions (`windows(2)`, modelled as `zip` with the tail), followed by the
final slice from the last kept position (`unwrap_or(&0)`) to the end. -/
def chunked_string (s : List Char) (first_chunk_size chunk_size : Nat) : List (List Char) :=
  (((chunkIdxs s first_chunk_size chunk_size).zip
      (chunkIdxs s first_chunk_size chunk_size).tail).map
    fun w => (s.drop w.1).take (w.2 - w.1))
  ++ [s.drop ((chunkIdxs s first_chunk_size chunk_size).getLast?.getD 0)]

theorem keepIdx_zero (f r : Nat) : keepIdx f r 0 = true := by
  simp only [keepIdx]
  rw [if_neg (by omega)]
  simp

theorem chunkIdxs_nil (f r : Nat) : chunkIdxs [] f r = [] := rfl

theorem chunkIdxs_pairwise (s : List Char) (f r : Nat) :
    (chunkIdxs s f r).Pairwise (· < ·) :=
  (List.pairwise_lt_range s.length).filter _

theorem chunkIdxs_mem_lt (s : List Char) (f r : Nat) :
    ∀ i ∈ chunkIdxs s f r, i < s.length := by
  intro i hi
  exact List.mem_range.mp (List.mem_of_mem_filter hi)

theorem chunkIdxs_head (s : List Char) (f r : Nat) (hs : s ≠ []) :
    (chunkIdxs s f r).head?.getD 0 = 0 := by
  obtain ⟨m, hm⟩ : ∃ m, s.length = m + 1 :=
    ⟨s.length - 1, by have := List.length_pos.mpr hs; omega⟩
  rw [chunkIdxs, hm, List.range_succ_eq_map, List.filter_cons_of_pos (keepIdx_zero f r)]
  rfl

/-- Concatenating consecutive slices of `s` delimited by a weakly increasing
index list, then the final slice from the last index, recovers `s` from the
first index on. -/
theorem slices_flatten (s : List Char) :
    ∀ idxs : List Nat, idxs.Pairwise (· ≤ ·) →
      ((idxs.zip idxs.tail).map fun w => (s.drop w.1).take (w.2 - w.1)).flatten
        ++ s.drop (idxs.getLast?.getD 0) = s.drop (idxs.head?.getD 0)
  | [], _ => by simp
  | [a], _ => by simp
  | a :: b :: t, h => by
    have hab : a ≤ b := (List.pairwise_cons.mp h).1 b (by simp)
    have ih := slices_flatten s (b :: t) (List.pairwise_cons.mp h).2
    simp only [List.tail_cons, List.zip_cons_cons, List.map_cons, List.flatten_cons,
      List.getLast?_cons_cons, List.head?_cons, Option.getD_some] at ih ⊢
    rw [List.append_assoc, ih]
    have hdrop : s.drop b = (s.drop a).drop (b - a) := by
      rw [List.drop_drop, Nat.add_sub_cancel' hab]
    rw [hdrop, List.take_append_drop]

/-- C1. Chunking loses and duplicates nothing: for every string `s` and all
`first_len`, `rest_len`, the concatenation of the pieces of
`chunked_string s first_len rest_len` equals `s` exactly; and chunking the
empty string yields exactly one piece, the empty string. -/
theorem chunked_string_flatten_eq (s : List Char) (f r : Nat) :
    (chunked_string s f r).flatten = s ∧ chunked_string [] f r = [[]] := by
  constructor
  · rw [chunked_string, List.flatten_append, List.flatten_cons, List.flatten_nil,
      List.append_nil]
    rw [slices_flatten s _ ((chunkIdxs_pairwise s f r).imp Nat.le_of_lt)]
    rcases eq_or_ne s [] with rfl | hs
    · simp [chunkIdxs_nil]
    · rw [chunkIdxs_head s f r hs, List.drop_zero]
  · rfl

/-- Arithmetic progression `a, a+r, …, a+r*(K-1)` (proof helper used to
characterise `chunkIdxs`). -/
def ap (a r K : Nat) : List Nat := (List.range K).map fun k => a + r * k

theorem ap_succ_head (a r K : Nat) : ap a r (K + 1) = a :: ap (a + r) r K := by
  rw [ap, List.range_succ_eq_map, List.map_cons, List.map_map]
  refine congrArg₂ _ (by simp) ?_
  rw [ap]
  exact List.map_congr_left fun k _ => by simp [Function.comp]; ring

theorem ap_concat (a r K : Nat) : ap a r (K + 1) = ap a r K ++ [a + r * K] := by
  rw [ap, List.range_succ, List.map_append, ap]
  rfl

theorem range_one : List.range 1 = [0] := rfl

theorem ap_mem_lt {len a r : Nat} (ha : a < len) :
    ∀ x ∈ ap a r ((len - a - 1) / r + 1), x < len := by
  intro x hx
  rcases List.mem_map.mp hx with ⟨k, hk, rfl⟩
  have hk' : k ≤ (len - a - 1) / r := Nat.lt_succ_iff.mp (List.mem_range.mp hk)
  have h1 : r * k ≤ len - a - 1 := by
    calc r * k ≤ r * ((len - a - 1) / r) := Nat.mul_le_mul_left r hk'
    _ ≤ len - a - 1 := by rw [Nat.mul_comm]; exact Nat.div_mul_le_self _ _
  omega

/-- Every pair of consecutive members of an arithmetic progression differs by
exactly the step, and its right component is again a member. -/
theorem ap_zip_pairs (r : Nat) :
    ∀ (K a : Nat), ∀ p ∈ (ap a r K).zip (ap a r K).tail,
      p.2 = p.1 + r ∧ p.2 ∈ ap a r K
  | 0, a => by simp [ap]
  | 1, a => by simp [ap, Turf.range_one]
  | K + 2, a => by
    intro p hp
    have hp' : p ∈ (ap a r (K + 1 + 1)).zip (ap a r (K + 1 + 1)).tail := hp
    rw [ap_succ_head a r (K + 1)] at hp'
    rw [ap_succ_head (a + r) r K] at hp'
    simp only [List.tail_cons, List.zip_cons_cons, List.mem_cons] at hp'
    show p.2 = p.1 + r ∧ p.2 ∈ ap a r (K + 1 + 1)
    rw [ap_succ_head a r (K + 1)]
    rcases hp' with rfl | hp'
    · refine ⟨rfl, ?_⟩
      rw [ap_succ_head (a + r) r K]
      simp
    · have hmem : p ∈ (ap (a + r) r (K + 1)).zip (ap (a + r) r (K + 1)).tail := by
        rw [ap_succ_head (a + r) r K]
        simpa using hp'
      have h2 := ap_zip_pairs r (K + 1) (a + r) p hmem
      exact ⟨h2.1, List.mem_cons_of_mem _ h2.2⟩

theorem filter_keep_between {f r a m : Nat} (h1 : 1 ≤ a) (h2 : a + m ≤ f) :
    (List.range' a m).filter (keepIdx f r) = [] := by
  rw [List.filter_eq_nil_iff]
  intro i hi
  rw [List.mem_range'_1] at hi
  simp only [keepIdx]
  rw [if_neg (by omega)]
  simp only [Bool.or_eq_true, decide_eq_true_eq, not_or]
  omega

theorem filter_keep_above_r0 {f a m : Nat} (ha : f < a) :
    (List.range' a m).filter (keepIdx f 0) = [] := by
  rw [List.filter_eq_nil_iff]
  intro i hi
  rw [List.mem_range'_1] at hi
  simp only [keepIdx]
  rw [if_pos (by omega)]
  simp

theorem keepIdx_self (f r : Nat) : keepIdx f r f = true := by
  simp only [keepIdx]
  rw [if_neg (by omega)]
  simp

theorem range_decomp (n : Nat) (hn : 0 < n) :
    List.range n = 0 :: List.range' 1 (n - 1) := by
  rw [List.range_eq_range']
  obtain ⟨m, rfl⟩ : ∃ m, n = m + 1 := ⟨n - 1, by omega⟩
  rw [List.range'_succ]
  simp

/-- Characterisation of the kept positions when `0 < r` and `f < n`: position
`0`, then the arithmetic progression `f, f + r, f + 2r, …` below `n`. -/
theorem filter_keep_eq_ap {f r : Nat} (hr : 0 < r) :
    ∀ n, (List.range (f + 1 + n)).filter (keepIdx f r)
      = (if f = 0 then [] else [0]) ++ ap f r (n / r + 1)
  | 0 => by
    rcases Nat.eq_zero_or_pos f with rfl | hf
    · simp [ap, List.range_succ_eq_map, List.filter_cons, keepIdx_zero]
    · rw [range_decomp (f + 1) (by omega), List.filter_cons_of_pos (keepIdx_zero f r)]
      have hsplit : List.range' 1 (f + 1 - 1) = List.range' 1 (f - 1) ++ [f] := by
        have : List.range' 1 (f - 1) ++ List.range' (1 + (f - 1)) 1
            = List.range' 1 (1 + (f - 1)) := List.range'_append_1 1 (f - 1) 1
        rw [show 1 + (f - 1) = f by omega] at this
        rw [show f + 1 - 1 = f by omega, ← this]
        simp [List.range']
      rw [hsplit, List.filter_append, filter_keep_between (by omega) (by omega),
        List.filter_cons_of_pos (keepIdx_self f r)]
      simp only [Nat.zero_div, List.filter_nil, List.nil_append, if_neg (by omega : ¬ f = 0)]
      simp [ap, Turf.range_one]
  | n + 1 => by
    have hrec := @filter_keep_eq_ap f r hr n
    rw [show f + 1 + (n + 1) = (f + 1 + n) + 1 from rfl, List.range_succ,
      List.filter_append, hrec]
    have hgt : f + 1 + n > f := by omega
    by_cases hmod : (n + 1) % r = 0
    · -- r divides n + 1: one more index is kept
      have hdvd : r ∣ (n + 1) := Nat.dvd_of_mod_eq_zero hmod
      have hdiv : (n + 1) / r = n / r + 1 := by
        rw [Nat.succ_div, if_pos hdvd]
      have hkeep : keepIdx f r (f + 1 + n) = true := by
        simp only [keepIdx]
        rw [if_pos hgt]
        simp only [Bool.and_eq_true, decide_eq_true_eq]
        exact ⟨hr, by rw [show f + 1 + n - f = n + 1 by omega]; exact hmod⟩
      have hval : f + r * (n / r + 1) = f + 1 + n := by
        have h2 : r * ((n + 1) / r) = n + 1 := Nat.mul_div_cancel' hdvd
        rw [hdiv] at h2
        omega
      rw [List.filter_cons_of_pos hkeep, List.filter_nil, hdiv,
        ap_concat f r (n / r + 1), hval, List.append_assoc]
    · -- r does not divide n + 1: nothing new is kept
      have hndvd : ¬ r ∣ (n + 1) := fun hc => hmod (Nat.mod_eq_zero_of_dvd hc)
      have hdiv : (n + 1) / r = n / r := by
        rw [Nat.succ_div, if_neg hndvd]
        omega
      have hkeep : ¬ keepIdx f r (f + 1 + n) = true := by
        simp only [keepIdx]
        rw [if_pos hgt]
        simp only [Bool.and_eq_true, decide_eq_true_eq, not_and]
        intro _
        rw [show f + 1 + n - f = n + 1 by omega]
        exact hmod
      rw [List.filter_cons_of_neg hkeep, List.filter_nil, List.append_nil, hdiv]

theorem chunkIdxs_eq_of_lt {s : List Char} {f r : Nat} (hr : 0 < r) (hlt : f < s.length) :
    chunkIdxs s f r
      = (if f = 0 then [] else [0]) ++ ap f r ((s.length - f - 1) / r + 1) := by
  obtain ⟨m, hm⟩ : ∃ m, s.length = f + 1 + m := ⟨s.length - f - 1, by omega⟩
  rw [chunkIdxs, hm, @filter_keep_eq_ap f r hr m,
    show f + 1 + m - f - 1 = m by omega]

theorem chunkIdxs_small {s : List Char} {f r : Nat} (h0 : s ≠ []) (hle : s.length ≤ f) :
    chunkIdxs s f r = [0] := by
  rw [chunkIdxs, range_decomp s.length (List.length_pos.mpr h0),
    List.filter_cons_of_pos (keepIdx_zero f r),
    filter_keep_between (le_refl 1)
      (by have := List.length_pos.mpr h0; omega)]

theorem chunkIdxs_r0 {s : List Char} {f : Nat} (hf : 0 < f) (hlt : f < s.length) :
    chunkIdxs s f 0 = [0, f] := by
  rw [chunkIdxs, range_decomp s.length (by omega), List.filter_cons_of_pos (keepIdx_zero f 0)]
  have h1 : List.range' 1 (f - 1) ++ List.range' (1 + (f - 1)) (s.length - f)
      = List.range' 1 ((s.length - f) + (f - 1)) := List.range'_append_1 _ _ _
  rw [show 1 + (f - 1) = f by omega,
    show (s.length - f) + (f - 1) = s.length - 1 by omega] at h1
  rw [← h1, show s.length - f = (s.length - f - 1) + 1 by omega, List.range'_succ,
    List.filter_append, filter_keep_between (le_refl 1) (by omega),
    List.filter_cons_of_pos (keepIdx_self f 0), filter_keep_above_r0 (by omega)]
  rfl

theorem chunkIdxs_f0r0 {s : List Char} (h0 : s ≠ []) : chunkIdxs s 0 0 = [0] := by
  rw [chunkIdxs, range_decomp s.length (List.length_pos.mpr h0),
    List.filter_cons_of_pos (keepIdx_zero 0 0), filter_keep_above_r0 (by omega)]

theorem chunked_of_idxs_single {s : List Char} {f r : Nat} (h : chunkIdxs s f r = [0]) :
    chunked_string s f r = [s] := by
  rw [chunked_string, h]
  simp

theorem chunked_r0_pieces {s : List Char} {f : Nat} (hf : 0 < f) (hlt : f < s.length) :
    chunked_string s f 0 = [s.take f, s.drop f] := by
  rw [chunked_string, chunkIdxs_r0 hf hlt]
  simp

/-- Every slice between consecutive indices of a step-`r` progression has
length exactly `r`, provided every index is in bounds. -/
theorem map_slice_len {s : List Char} {r : Nat} {l : List Nat}
    (hp : ∀ p ∈ l.zip l.tail, p.2 = p.1 + r ∧ p.2 ∈ l)
    (hb : ∀ x ∈ l, x < s.length) :
    ∀ q ∈ (l.zip l.tail).map (fun w => (s.drop w.1).take (w.2 - w.1)), q.length = r := by
  intro q hq
  rcases List.mem_map.mp hq with ⟨p, hpmem, rfl⟩
  have h1 := hp p hpmem
  have h2 := hb p.2 h1.2
  rw [h1.1] at h2
  rw [List.length_take, List.length_drop, h1.1]
  omega

theorem tail_dropLast_concat {α : Type} (xs : List α) (x : α) :
    (xs ++ [x]).tail.dropLast = xs.tail := by
  cases xs with
  | nil => rfl
  | cons h t => simp

theorem zip_tail_tail {α : Type} (l : List α) :
    (l.zip l.tail).tail = l.tail.zip l.tail.tail := by
  cases l with
  | nil => rfl
  | cons a t =>
    cases t with
    | nil => rfl
    | cons b u => rfl

theorem chunked_head (s : List Char) (f r : Nat) (hf : 0 < f) :
    (chunked_string s f r).head? = some (s.take f) := by
  rcases eq_or_ne s [] with rfl | h0
  · simp [chunked_string, chunkIdxs_nil]
  · rcases le_or_lt s.length f with hle | hlt
    · rw [chunked_of_idxs_single (chunkIdxs_small h0 hle), List.head?_cons,
        List.take_of_length_le hle]
    · rcases Nat.eq_zero_or_pos r with rfl | hr
      · rw [chunked_r0_pieces hf hlt]
        rfl
      · rw [chunked_string, chunkIdxs_eq_of_lt hr hlt, if_neg (by omega), ap_succ_head]
        simp

theorem chunked_r0_len (s : List Char) (f : Nat) :
    (chunked_string s f 0).length ≤ 2 := by
  rcases eq_or_ne s [] with rfl | h0
  · simp [chunked_string, chunkIdxs_nil]
  · rcases le_or_lt s.length f with hle | hlt
    · rw [chunked_of_idxs_single (chunkIdxs_small h0 hle)]
      simp
    · rcases Nat.eq_zero_or_pos f with rfl | hf
      · rw [chunked_of_idxs_single (chunkIdxs_f0r0 h0)]
        simp
      · rw [chunked_r0_pieces hf hlt]
        simp

theorem chunked_00 (s : List Char) : chunked_string s 0 0 = [s] := by
  rcases eq_or_ne s [] with rfl | h0
  · rfl
  · exact chunked_of_idxs_single (chunkIdxs_f0r0 h0)

theorem chunked_f0_dropLast (s : List Char) (r : Nat) :
    ∀ p ∈ (chunked_string s 0 r).dropLast, p.length = r := by
  rcases eq_or_ne s [] with rfl | h0
  · simp [chunked_string, chunkIdxs_nil]
  · rcases Nat.eq_zero_or_pos r with rfl | hr
    · rw [chunked_of_idxs_single (chunkIdxs_f0r0 h0)]
      simp
    · have hlt : (0 : Nat) < s.length := List.length_pos.mpr h0
      have hidx := chunkIdxs_eq_of_lt hr hlt
      rw [if_pos rfl, List.nil_append] at hidx
      rw [chunked_string, hidx, List.dropLast_concat]
      exact map_slice_len (ap_zip_pairs r _ 0) (@ap_mem_lt s.length 0 r hlt)

theorem chunked_mid_len (s : List Char) (f r : Nat) :
    ∀ p ∈ (chunked_string s f r).tail.dropLast, p.length = r := by
  rcases eq_or_ne s [] with rfl | h0
  · simp [chunked_string, chunkIdxs_nil]
  · rcases le_or_lt s.length f with hle | hlt
    · rw [chunked_of_idxs_single (chunkIdxs_small h0 hle)]
      simp
    · rcases Nat.eq_zero_or_pos r with rfl | hr
      · rcases Nat.eq_zero_or_pos f with rfl | hf
        · rw [chunked_of_idxs_single (chunkIdxs_f0r0 h0)]
          simp
        · rw [chunked_r0_pieces hf hlt]
          simp
      · rw [chunked_string, tail_dropLast_concat, ← List.map_tail, zip_tail_tail]
        rcases Nat.eq_zero_or_pos f with rfl | hf
        · have hidx := chunkIdxs_eq_of_lt hr hlt
          rw [if_pos rfl, List.nil_append] at hidx
          rw [hidx, ap_succ_head]
          simp only [List.tail_cons]
          exact map_slice_len (ap_zip_pairs r _ (0 + r))
            (fun x hx => @ap_mem_lt s.length 0 r hlt x
              (by rw [ap_succ_head]; exact List.mem_cons_of_mem _ hx))
        · have hidx := chunkIdxs_eq_of_lt hr hlt
          rw [if_neg (by omega)] at hidx
          rw [hidx, List.singleton_append]
          simp only [List.tail_cons]
          exact map_slice_len (ap_zip_pairs r _ f) (@ap_mem_lt s.length f r hlt)

/-- C9. Piece structure of the chunking primitive `chunked_string`: the first
piece is the first `first_len` characters (the whole string when shorter);
every piece strictly between the first and the last has exactly `rest_len`
characters (the "next `rest_len` characters" each); when `rest_len = 0` at
most two pieces exist; when `first_len = 0` every non-final piece has exactly
`rest_len` characters starting at position 0; when both are 0 the whole
string is one piece.  Splitting only at character boundaries is captured by
the embedding itself: pieces are `take`/`drop` slices of the character list.
-/
theorem chunked_string_piece_spec (s : List Char) (f r : Nat) :
    (0 < f → (chunked_string s f r).head? = some (s.take f))
    ∧ (∀ p ∈ (chunked_string s f r).tail.dropLast, p.length = r)
    ∧ (r = 0 → (chunked_string s f r).length ≤ 2)
    ∧ (f = 0 → ∀ p ∈ (chunked_string s f r).dropLast, p.length = r)
    ∧ (f = 0 → r = 0 → chunked_string s f r = [s]) :=
  ⟨fun hf => chunked_head s f r hf,
   chunked_mid_len s f r,
   fun hr => by rw [hr]; exact chunked_r0_len s f,
   fun hf => by rw [hf]; exact chunked_f0_dropLast s r,
   fun hf hr => by rw [hf, hr]; exact chunked_00 s⟩

/-- Witness for `chunked_string_piece_spec` on the spec's own test vectors. -/
theorem chunked_string_piece_spec_witness :
    (chunked_string ("abcdefghij".data) 4 2).head? = some ("abcd".data)
    ∧ (∀ p ∈ (chunked_string ("abcdefghij".data) 4 2).tail.dropLast, p.length = 2)
    ∧ (chunked_string ("123456789".data) 4 0).length ≤ 2
    ∧ (∀ p ∈ (chunked_string ("123456789".data) 0 2).dropLast, p.length = 2)
    ∧ chunked_string ("123456789".data) 0 0 = ["123456789".data] :=
  ⟨(chunked_string_piece_spec ("abcdefghij".data) 4 2).1 (by decide),
   (chunked_string_piece_spec ("abcdefghij".data) 4 2).2.1,
   (chunked_string_piece_spec ("123456789".data) 4 0).2.2.1 rfl,
   (chunked_string_piece_spec ("123456789".data) 0 2).2.2.2.1 rfl,
   (chunked_string_piece_spec ("123456789".data) 0 0).2.2.2.2 rfl rfl⟩

/-- The Rust unit tests of `chunked_string` (`src/app.rs` 693-730), replayed
against the embedding. -/
theorem chunked_string_unit_tests :
    chunked_string ("abcdefghij".data) 4 2
      = ["abcd".data, "ef".data, "gh".data, "ij".data]
    ∧ chunked_string ("123456789".data) 4 2
      = ["1234".data, "56".data, "78".data, "9".data]
    ∧ chunked_string ("abc".data) 4 2 = ["abc".data]
    ∧ chunked_string ("abcde".data) 4 2 = ["abcd".data, "e".data]
    ∧ chunked_string ("".data) 4 2 = ["".data]
    ∧ chunked_string ("123456789".data) 4 0 = ["1234".data, "56789".data]
    ∧ chunked_string ("123456789".data) 0 2
      = ["12".data, "34".data, "56".data, "78".data, "9".data]
    ∧ chunked_string ("123456789".data) 0 0 = ["123456789".data] := by
  refine ⟨?_, ?_, ?_, ?_, ?_, ?_, ?_, ?_⟩ <;> decide

/-- `ScrollAnchor` (`src/app.rs` 38-41). -/
inductive ScrollAnchor
  | Top
  | Bottom
deriving DecidableEq

/-- A line-terminator character, the pattern `&['\r', '\n']` of `fit_text`
(`src/app.rs` 741). -/
def isTerm (c : Char) : Bool := c = '\r' || c = '\n'

/-- Position of the last `'\r'`/`'\n'` in `s`, if any (the split point of
`rsplit_once` in `src/app.rs` 741). -/
def lastTermIdx : List Char → Option Nat
  | [] => none
  | c :: cs =>
    match lastTermIdx cs with
    | some i => some (i + 1)
    | none => if isTerm c then some 0 else none

/-- `s.rsplit_once(&['\r','\n']).map_or(s, |(p, _)| p)` (`src/app.rs` 741):
everything before the last line terminator, or `s` unchanged when `s`
contains no terminator. -/
def stripAfterLastTerm (s : List Char) : List Char :=
  match lastTermIdx s with
  | none => s
  | some i => s.take i

/-- Rust `str::split(c)`: all pieces between occurrences of `c`, empty pieces
included; the empty string gives one empty piece. -/
def splitOnChar (c : Char) : List Char → List (List Char)
  | [] => [[]]
  | x :: xs =>
    if x = c then [] :: splitOnChar c xs
    else
      match splitOnChar c xs with
      | [] => [[x]]
      | h :: t => (x :: h) :: t

/-- Strip one trailing `'\r'`, as Rust `lines()` does on each piece that was
terminated by `'\n'`. -/
def stripCr (l : List Char) : List Char :=
  if l.getLast? = some '\r' then l.dropLast else l

/-- Rust `str::lines()`: split on `'\n'`; every piece that was followed by a
`'\n'` loses one trailing `'\r'`; a final empty piece (from a trailing
newline, or from the empty string) is dropped; a final non-empty piece is
kept verbatim. -/
def rustLines (s : List Char) : List (List Char) :=
  let ps := splitOnChar '\n' s
  ps.dropLast.map stripCr ++
    (match ps.getLast? with
     | some l => if l = [] then [] else [l]
     | none => [])

/-- The logical lines of `fit_text` (`src/app.rs` 741-742): strip after the
last terminator, split into lines, then split each line again on bare `'\r'`
(`flat_map(|l| l.split('\r'))`). -/
def logicalLines (s : List Char) : List (List Char) :=
  ((rustLines (stripAfterLastTerm s)).map (splitOnChar '\r')).flatten

/-- Rendering of one logical line (`src/app.rs` 749-784): with `wrap`, the
chunks of `chunked_string l cols (cols - 2)`, each non-first chunk prefixed
by the two-character continuation marker `"↪ "`; without `wrap`, one line,
truncated to `cols - 1` characters plus the ellipsis when the line has more
than `cols` characters. -/
def renderLine (cols : Nat) (wrap : Bool) (l : List Char) : List (List Char) :=
  if wrap then
    (chunked_string l cols (cols - 2)).enum.map
      (fun p => if p.1 = 0 then p.2.take cols else '↪' :: ' ' :: p.2.take (cols - 2))
  else if cols < l.length then [l.take (cols - 1) ++ ['…']]
  else [l.take cols]

/-- The windowing core of `fit_text` (`src/app.rs` 743-800) applied to an
already-computed logical-line list: choose traversal direction by anchor,
skip `offset` lines, render each (reversing each line's chunks under
`Bottom`), truncate to `rows`, and reverse the whole output under `Bottom`. -/
def fitFrom (ls : List (List Char)) (rows cols : Nat) (anchor : ScrollAnchor)
    (offset : Nat) (wrap : Bool) : List (List Char) :=
  let dir := match anchor with
    | ScrollAnchor.Top => ls
    | ScrollAnchor.Bottom => ls.reverse
  let out := (((dir.drop offset).map fun l =>
      match anchor with
      | ScrollAnchor.Top => renderLine cols wrap l
      | ScrollAnchor.Bottom => (renderLine cols wrap l).reverse).flatten).take rows
  match anchor with
  | ScrollAnchor.Top => out
  | ScrollAnchor.Bottom => out.reverse

/-- `fit_text` (`src/app.rs` 733-801), produced lines modelled as character
lists (styling dropped, span contents concatenated). -/
def fit_text (s : List Char) (rows cols : Nat) (anchor : ScrollAnchor)
    (offset : Nat) (wrap : Bool) : List (List Char) :=
  fitFrom (logicalLines s) rows cols anchor offset wrap

theorem lastTermIdx_of_no_term {t : List Char} (ht : ∀ c ∈ t, isTerm c = false) :
    lastTermIdx t = none := by
  induction t with
  | nil => rfl
  | cons c cs ih =>
    have hcs := ih fun x hx => ht x (List.mem_cons_of_mem _ hx)
    simp only [lastTermIdx, hcs]
    simp [ht c (List.mem_cons_self c cs)]

theorem lastTermIdx_append {s u : List Char} {i : Nat} (hu : lastTermIdx u = some i) :
    lastTermIdx (s ++ u) = some (s.length + i) := by
  induction s with
  | nil => simpa using hu
  | cons c cs ih =>
    have ih' : lastTermIdx (cs.append u) = some (cs.length + i) := ih
    simp only [List.cons_append, lastTermIdx, ih', List.length_cons]
    rw [Option.some.injEq]
    omega

theorem strip_append_term {s t : List Char} {c : Char} (hc : isTerm c = true)
    (ht : ∀ x ∈ t, isTerm x = false) :
    stripAfterLastTerm (s ++ c :: t) = s := by
  have h0 : lastTermIdx (c :: t) = some 0 := by
    simp [lastTermIdx, lastTermIdx_of_no_term ht, hc]
  simp only [stripAfterLastTerm, @lastTermIdx_append s (c :: t) 0 h0, Nat.add_zero]
  exact List.take_left s _

theorem splitOnChar_no_sep {c : Char} :
    ∀ {l : List Char}, (∀ x ∈ l, ¬ x = c) → splitOnChar c l = [l]
  | [], _ => rfl
  | x :: xs, h => by
    have hx : ¬ x = c := h x (List.mem_cons_self x xs)
    have ih := splitOnChar_no_sep fun y hy => h y (List.mem_cons_of_mem _ hy)
    unfold splitOnChar
    rw [if_neg hx, ih]

theorem logicalLines_no_term {s : List Char} (h0 : s ≠ []) (hs : ∀ c ∈ s, isTerm c = false) :
    logicalLines s = [s] := by
  have hnl : ∀ x ∈ s, ¬ x = '\n' := by
    intro x hx hc
    have := hs x hx
    rw [hc] at this
    simp [isTerm] at this
  have hcr : ∀ x ∈ s, ¬ x = '\r' := by
    intro x hx hc
    have := hs x hx
    rw [hc] at this
    simp [isTerm] at this
  have hstrip : stripAfterLastTerm s = s := by
    simp only [stripAfterLastTerm, lastTermIdx_of_no_term hs]
  unfold logicalLines
  rw [hstrip]
  unfold rustLines
  rw [splitOnChar_no_sep hnl]
  simp only [List.dropLast_single, List.map_nil, List.getLast?_singleton, Option.some.injEq]
  rw [if_neg h0]
  simp [splitOnChar_no_sep hcr]

/-- C2 counterexample: content with no line terminator at all is *not*
rendered as zero lines; the in-progress unterminated line `"abc"` is shown. -/
theorem fit_text_no_term_counterexample :
    fit_text ("abc".data) 5 10 ScrollAnchor.Top 0 false = ["abc".data]
    ∧ ¬ fit_text ("abc".data) 5 10 ScrollAnchor.Top 0 false = [] := by
  exact ⟨by decide, by decide⟩

/-- C2 (amended). When the content contains at least one line terminator,
the trailing fragment after the final terminator is discarded before
windowing: appending any terminator-free fragment after a final terminator
(`'\n'` or `'\r'`) does not change the output of `fit_text`.  Content
containing no terminator at all, however, is *not* dropped: it forms a
single (unterminated) logical line which is rendered. -/
theorem fit_text_trailing_fragment (s t : List Char) (c : Char) (rows cols offset : Nat)
    (anchor : ScrollAnchor) (wrap : Bool) :
    (isTerm c = true → (∀ x ∈ t, isTerm x = false) →
      fit_text (s ++ c :: t) rows cols anchor offset wrap
        = fit_text (s ++ [c]) rows cols anchor offset wrap)
    ∧ (s ≠ [] → (∀ x ∈ s, isTerm x = false) →
      fit_text s rows cols anchor offset wrap = fitFrom [s] rows cols anchor offset wrap) := by
  constructor
  · intro hc ht
    unfold fit_text logicalLines
    rw [strip_append_term hc ht, strip_append_term hc (by simp)]
  · intro h0 hs
    unfold fit_text
    rw [logicalLines_no_term h0 hs]

/-- Witness for `fit_text_trailing_fragment`. -/
theorem fit_text_trailing_fragment_witness :
    fit_text ("ab".data ++ '\n' :: "cde".data) 5 10 ScrollAnchor.Top 0 false
      = fit_text ("ab".data ++ ['\n']) 5 10 ScrollAnchor.Top 0 false
    ∧ fit_text ("abc".data) 5 10 ScrollAnchor.Top 0 false
      = fitFrom ["abc".data] 5 10 ScrollAnchor.Top 0 false :=
  ⟨(fit_text_trailing_fragment ("ab".data) ("cde".data) '\n' 5 10 0
      ScrollAnchor.Top false).1 (by decide) (by decide),
   (fit_text_trailing_fragment ("abc".data) [] '\n' 5 10 0 ScrollAnchor.Top false).2
      (by decide) (by decide)⟩

/-- Every output line of `fitFrom` is one of the rendered lines of one of the
input logical lines. -/
theorem fitFrom_mem {ls : List (List Char)} {rows cols offset : Nat}
    {anchor : ScrollAnchor} {wrap : Bool} {l : List Char}
    (hl : l ∈ fitFrom ls rows cols anchor offset wrap) :
    ∃ src ∈ ls, l ∈ renderLine cols wrap src := by
  cases anchor with
  | Top =>
    simp only [fitFrom] at hl
    have h1 := List.take_subset _ _ hl
    rcases List.mem_flatten.mp h1 with ⟨L, hL, hlL⟩
    rcases List.mem_map.mp hL with ⟨src, hsrc, rfl⟩
    exact ⟨src, List.drop_subset _ _ hsrc, hlL⟩
  | Bottom =>
    simp only [fitFrom, List.mem_reverse] at hl
    have h1 := List.take_subset _ _ hl
    rcases List.mem_flatten.mp h1 with ⟨L, hL, hlL⟩
    rcases List.mem_map.mp hL with ⟨src, hsrc, rfl⟩
    rw [List.mem_reverse] at hlL
    exact ⟨src, List.mem_reverse.mp (List.drop_subset _ _ hsrc), hlL⟩

theorem renderLine_nowrap_long {cols : Nat} {src : List Char} (h : cols < src.length) :
    renderLine cols false src = [src.take (cols - 1) ++ ['…']] := by
  unfold renderLine
  rw [if_neg (by simp), if_pos h]

theorem renderLine_nowrap_len {cols : Nat} (hc : 1 ≤ cols) {src l : List Char}
    (hl : l ∈ renderLine cols false src) : l.length ≤ cols := by
  by_cases h : cols < src.length
  · rw [renderLine_nowrap_long h] at hl
    rcases List.mem_singleton.mp hl with rfl
    rw [List.length_append, List.length_take]
    simp only [List.length_singleton]
    omega
  · unfold renderLine at hl
    rw [if_neg (by simp), if_neg h] at hl
    rcases List.mem_singleton.mp hl with rfl
    rw [List.length_take]
    omega

/-- C5 (amended). With `wrap = false` and `1 ≤ viewport_cols`, every rendered
line of `fit_text` has at most `viewport_cols` characters; whenever a source
logical line has more than `viewport_cols` characters its rendering is the
first `viewport_cols - 1` characters followed by the ellipsis marker (so the
final character is `'…'`); and every output line of `fit_text` is the
rendering of one of the content's logical lines.  (For `viewport_cols = 0`
the length bound fails, see the counterexample.) -/
theorem fit_text_nowrap_truncation (s : List Char) (rows cols offset : Nat)
    (anchor : ScrollAnchor) :
    (1 ≤ cols → ∀ l ∈ fit_text s rows cols anchor offset false, l.length ≤ cols)
    ∧ (∀ src : List Char, cols < src.length →
        renderLine cols false src = [src.take (cols - 1) ++ ['…']]
          ∧ (src.take (cols - 1) ++ ['…']).getLast? = some '…')
    ∧ (∀ l ∈ fit_text s rows cols anchor offset false,
        ∃ src ∈ logicalLines s, l ∈ renderLine cols false src) := by
  refine ⟨?_, ?_, ?_⟩
  · intro hc l hl
    rcases fitFrom_mem hl with ⟨src, _, hmem⟩
    exact renderLine_nowrap_len hc hmem
  · intro src h
    exact ⟨renderLine_nowrap_long h, List.getLast?_concat _⟩
  · intro l hl
    exact fitFrom_mem hl

/-- C5 counterexample: with `viewport_cols = 0` the rendered line `"…"` has
1 > 0 characters, violating the claimed bound. -/
theorem fit_text_cols_zero_counterexample :
    fit_text ("a\n".data) 1 0 ScrollAnchor.Top 0 false = [['…']]
    ∧ ¬ (∀ l ∈ fit_text ("a\n".data) 1 0 ScrollAnchor.Top 0 false, l.length ≤ 0) := by
  exact ⟨by decide, by decide⟩

/-- Witness for `fit_text_nowrap_truncation`. -/
theorem fit_text_nowrap_truncation_witness :
    (∀ l ∈ fit_text ("abcdefgh\n".data) 3 5 ScrollAnchor.Top 0 false, l.length ≤ 5)
    ∧ (renderLine 5 false ("abcdefgh".data) = ["abcd".data ++ ['…']]
        ∧ (("abcdefgh".data).take 4 ++ ['…']).getLast? = some '…')
    ∧ (∃ src ∈ logicalLines ("abcdefgh\n".data),
        ("abcd".data ++ ['…']) ∈ renderLine 5 false src) := by
  refine ⟨(fit_text_nowrap_truncation ("abcdefgh\n".data) 3 5 0 ScrollAnchor.Top).1
      (by decide), ?_, ?_⟩
  · have h := (fit_text_nowrap_truncation ("abcdefgh\n".data) 3 5 0 ScrollAnchor.Top).2.1
      ("abcdefgh".data) (by decide)
    exact ⟨h.1, h.2⟩
  · exact (fit_text_nowrap_truncation ("abcdefgh\n".data) 3 5 0 ScrollAnchor.Top).2.2
      ("abcd".data ++ ['…']) (by decide)

theorem renderLine_short {cols : Nat} {l : List Char} (h : l.length ≤ cols) :
    renderLine cols false l = [l] := by
  unfold renderLine
  rw [if_neg (by simp), if_neg (by omega), List.take_of_length_le h]

theorem fitFrom_length_le (ls : List (List Char)) (rows cols offset : Nat)
    (anchor : ScrollAnchor) (wrap : Bool) :
    (fitFrom ls rows cols anchor offset wrap).length ≤ rows := by
  cases anchor with
  | Top =>
    simp only [fitFrom]
    rw [List.length_take]
    omega
  | Bottom =>
    simp only [fitFrom]
    rw [List.length_reverse, List.length_take]
    omega

/-- C6. Bottom-anchored pagination: for `"line1\nline2\nline3\n"`,
`viewport_rows = 2`, anchor `Bottom`, offset 0, no wrapping and any
`viewport_cols ≥ 5`, the output is exactly `["line2", "line3"]` in
top-to-bottom order (the collected lines are reversed once at the end);
and the output of `fit_text` never exceeds `viewport_rows` lines. -/
theorem fit_text_bottom_anchoring :
    (∀ cols, 5 ≤ cols →
      fit_text ("line1\nline2\nline3\n".data) 2 cols ScrollAnchor.Bottom 0 false
        = ["line2".data, "line3".data])
    ∧ (∀ (s : List Char) (rows cols offset : Nat) (anchor : ScrollAnchor) (wrap : Bool),
        (fit_text s rows cols anchor offset wrap).length ≤ rows) := by
  constructor
  · intro cols hc
    have hll : logicalLines ("line1\nline2\nline3\n".data)
        = ["line1".data, "line2".data, "line3".data] := by decide
    have h1 : ("line1".data).length ≤ cols := by
      have : ("line1".data).length = 5 := rfl
      omega
    have h2 : ("line2".data).length ≤ cols := by
      have : ("line2".data).length = 5 := rfl
      omega
    have h3 : ("line3".data).length ≤ cols := by
      have : ("line3".data).length = 5 := rfl
      omega
    unfold fit_text
    rw [hll]
    simp only [fitFrom]
    have hrev : (["line1".data, "line2".data, "line3".data] : List (List Char)).reverse
        = ["line3".data, "line2".data, "line1".data] := by decide
    rw [hrev]
    simp only [List.drop_zero, List.map_cons, List.map_nil,
      renderLine_short h1, renderLine_short h2, renderLine_short h3]
    decide
  · intro s rows cols offset anchor wrap
    exact fitFrom_length_le (logicalLines s) rows cols offset anchor wrap

/-- Witness for `fit_text_bottom_anchoring` at `viewport_cols = 7`. -/
theorem fit_text_bottom_anchoring_witness :
    fit_text ("line1\nline2\nline3\n".data) 2 7 ScrollAnchor.Bottom 0 false
      = ["line2".data, "line3".data] :=
  fit_text_bottom_anchoring.1 7 (by decide)

/-- C10. Totality of the text-handling primitives as modelled: the slice
positions used by `chunked_string` are strictly increasing and in bounds
(so every Rust byte-range `&s[w[0]..w[1]]` and `&s[last..]` is a valid
slice at `char_indices` boundaries, i.e. never inside a multi-byte
character), and the degenerate pagination inputs — zero rows, empty
content, offset at or past the number of logical lines — all produce an
(empty) output rather than an error.  Totality itself is inherent: both
functions are structurally total on all inputs. -/
theorem fit_text_chunked_total (s : List Char) (f r rows cols offset : Nat)
    (anchor : ScrollAnchor) (wrap : Bool) :
    (chunkIdxs s f r).Pairwise (· < ·)
    ∧ (∀ i ∈ chunkIdxs s f r, i < s.length)
    ∧ fit_text s 0 cols anchor offset wrap = []
    ∧ fit_text [] rows cols anchor offset wrap = []
    ∧ ((logicalLines s).length ≤ offset →
        fit_text s rows cols anchor offset wrap = []) := by
  refine ⟨chunkIdxs_pairwise s f r, chunkIdxs_mem_lt s f r, ?_, ?_, ?_⟩
  · cases anchor <;> simp [fit_text, fitFrom]
  · have hnil : logicalLines [] = [] := by decide
    cases anchor <;> simp [fit_text, fitFrom, hnil]
  · intro hoff
    cases anchor with
    | Top =>
      simp only [fit_text, fitFrom]
      rw [List.drop_eq_nil_of_le hoff]
      simp
    | Bottom =>
      simp only [fit_text, fitFrom]
      rw [List.drop_eq_nil_of_le (by rw [List.length_reverse]; exact hoff)]
      simp

/-- Witness for `fit_text_chunked_total`. -/
theorem fit_text_chunked_total_witness :
    fit_text ("a\nb\n".data) 3 10 ScrollAnchor.Top 5 false = [] :=
  (fit_text_chunked_total ("a\nb\n".data) 0 0 3 10 5 ScrollAnchor.Top false).2.2.2.2
    (by decide)

/-- `ViewMode` (`src/app.rs` 28-31). -/
inductive ViewMode
  | AllJobs
  | ArrayJobDetails (array_id : String)
deriving DecidableEq

/-- `Dialog` (`src/app.rs` 33-35). -/
inductive Dialog
  | ConfirmCancelJob (id : String)
deriving DecidableEq

/-- `OutputFileView` (`src/app.rs` 43-48). -/
inductive OutputFileView
  | Stdout
  | Stderr
deriving DecidableEq

/-- `Job` (`src/app.rs` 75-91); `PathBuf` fields modelled as strings. -/
structure Job where
  job_id : String
  array_id : String
  array_step : Option String
  name : String
  state : String
  state_compact : String
  reason : Option String
  user : String
  time : String
  tres : String
  partition : String
  nodelist : String
  stdout : Option String
  stderr : Option String
  command : String
deriving DecidableEq

/-- `DisplayJob` (`src/app.rs` 93-111). -/
structure DisplayJob where
  job_id : String
  array_id : String
  name : String
  state : String
  state_compact : String
  reason : Option String
  user : String
  time : String
  tres : String
  partition : String
  nodelist : String
  command : String
  is_array : Bool
  task_count : Option Nat
  stdout : Option String
  stderr : Option String
deriving DecidableEq

/-- `DisplayJob::id` (`src/app.rs` 122-130). -/
def DisplayJob.id (j : DisplayJob) : String :=
  if j.is_array then
    j.array_id ++ "_[1-" ++ toString (j.task_count.getD 0) ++ "]"
  else j.job_id

/-- `job.array_step.is_some()` (`src/app.rs` 949): the job carries an
array-task index. -/
def Job.isArrayTask (j : Job) : Bool := j.array_step.isSome

/-- The per-job `DisplayJob` construction of `update_display_jobs`
(`src/app.rs` 960-977 and, with identical field mapping, 1010-1027): a
non-collapsed row. -/
def mkStandalone (j : Job) : DisplayJob :=
  { job_id := j.job_id, array_id := j.array_id, name := j.name, state := j.state,
    state_compact := j.state_compact, reason := j.reason, user := j.user,
    time := j.time, tres := j.tres, partition := j.partition,
    nodelist := j.nodelist, command := j.command, is_array := false,
    task_count := none, stdout := j.stdout, stderr := j.stderr }

/-- First-seen deduplication of the array identifiers.  This is a
deterministic stand-in for the key set of the `HashMap` grouping in
`update_display_jobs` (`src/app.rs` 944-1002), whose iteration order is
unspecified; the properties proved about the collapsed rows are insensitive
to the order of this list. -/
def firstSeen : List String → List String
  | [] => []
  | x :: xs => x :: (firstSeen xs).filter fun y => decide (y ≠ x)

/-- One collapsed row of `update_display_jobs` (`src/app.rs` 981-1001):
built from the group's first member in input order (`jobs.first()`), with
`task_count` the group size; `job_id` and `array_id` are both the array
identifier. -/
def collapsedRow (jobs : List Job) (id : String) : Option DisplayJob :=
  match jobs.filter fun j => j.isArrayTask && j.array_id == id with
  | [] => none
  | fj :: rest =>
    some { job_id := id, array_id := id, name := fj.name, state := fj.state,
           state_compact := fj.state_compact, reason := fj.reason, user := fj.user,
           time := fj.time, tres := fj.tres, partition := fj.partition,
           nodelist := fj.nodelist, command := fj.command, is_array := true,
           task_count := some (rest.length + 1), stdout := fj.stdout,
           stderr := fj.stderr }

/-- `App::update_display_jobs` (`src/app.rs` 940-1031) as a pure projection
of the job list and view mode into display rows: in `AllJobs` mode, the
standalone jobs 1:1 in input order followed by one collapsed row per
distinct array identifier; in `ArrayJobDetails` mode, the matching array
tasks 1:1 in input order. -/
def project (jobs : List Job) (mode : ViewMode) : List DisplayJob :=
  match mode with
  | ViewMode.AllJobs =>
      ((jobs.filter fun j => !j.isArrayTask).map mkStandalone)
        ++ (firstSeen ((jobs.filter fun j => j.isArrayTask).map fun j => j.array_id)).filterMap
            (collapsedRow jobs)
  | ViewMode.ArrayJobDetails id =>
      (jobs.filter fun j => j.isArrayTask && j.array_id == id).map mkStandalone

/-- The key codes the application distinguishes (a subset of `crossterm`'s). -/
inductive KeyCode
  | Char (c : Char)
  | Enter
  | Esc
  | Up
  | Down
  | Left
  | Right
  | PageUp
  | PageDown
  | Home
  | End
  | Other
deriving DecidableEq

/-- A key event: code plus whether any of SHIFT/CONTROL/ALT is held
(`key.modifiers.intersects(...)`, `src/app.rs` 290-298). -/
structure KeyEvent where
  code : KeyCode
  hasMod : Bool
deriving DecidableEq

/-- `AppMessage` (`src/app.rs` 132-136); the file-watcher error payload is
opaque to the application and modelled as a string. -/
inductive AppMessage
  | Jobs (jobs : List Job)
  | JobOutput (content : Except String String)
  | Key (k : KeyEvent)

deriving instance DecidableEq for Except

/-- The mutable state of `App` (`src/app.rs` 50-73) touched by message
handling.  `selected` is `job_list_state.selected()`; `squeue_args` is the
query-argument list held by the job watcher, `file_target` the path held by
the file watcher (the two handles' externally visible state); the purely
geometric `Rect` fields and the mouse-drag flag, set only during painting
and mouse handling, are not modelled. -/
structure AppState where
  dialog : Option Dialog
  view_mode : ViewMode
  jobs : List Job
  display_jobs : List DisplayJob
  original_squeue_args : List String
  selected : Option Nat
  scrollbar_content_length : Nat
  scrollbar_position : Nat
  job_output : Except String String
  job_output_anchor : ScrollAnchor
  job_output_offset : Nat
  job_output_wrap : Bool
  output_file_view : OutputFileView
  squeue_args : List String
  file_target : Option String
deriving DecidableEq

/-- `self.update_display_jobs()` applied to the state. -/
def updateDisplayJobs (st : AppState) : AppState :=
  { st with display_jobs := project st.jobs st.view_mode }

/-- `App::update_job_list_scrollbar` (`src/app.rs` 1062-1066). -/
def updateScrollbar (st : AppState) : AppState :=
  { st with
      scrollbar_content_length := st.display_jobs.length,
      scrollbar_position := st.selected.getD 0 }

/-- `App::select_next_job` (`src/app.rs` 902-919): clamped at the last row,
no wraparound. -/
def selectNextJob (st : AppState) : AppState :=
  if st.display_jobs.isEmpty then st
  else
    let i := match st.selected with
      | some i => if st.display_jobs.length - 1 ≤ i then i else i + 1
      | none => 0
    updateScrollbar { st with selected := some i }

/-- `App::select_previous_job` (`src/app.rs` 921-938): clamped at the first
row, no wraparound. -/
def selectPreviousJob (st : AppState) : AppState :=
  if st.display_jobs.isEmpty then st
  else
    let i := match st.selected with
      | some i => if i = 0 then 0 else i - 1
      | none => 0
    updateScrollbar { st with selected := some i }

/-- `App::enter_array_job` (`src/app.rs` 1033-1049): only when the selected
row exists and is a collapsed array row — switch to `ArrayJobDetails`,
narrow the queue watcher's query to `--job <array_id>`, recompute the
display rows, reset selection to row 0, refresh the scrollbar. -/
def enter_array_job (st : AppState) : AppState :=
  match st.selected with
  | none => st
  | some i =>
    match st.display_jobs.get? i with
    | none => st
    | some dj =>
      if dj.is_array then
        updateScrollbar
          { (updateDisplayJobs
              { st with
                  view_mode := ViewMode.ArrayJobDetails dj.array_id,
                  squeue_args := ["--job", dj.array_id] }) with
              selected := some 0 }
      else st

/-- `App::exit_array_job` (`src/app.rs` 1051-1060): back to `AllJobs`,
restore the original query arguments, recompute, reset selection to row 0.
-/
def exit_array_job (st : AppState) : AppState :=
  updateScrollbar
    { (updateDisplayJobs
        { st with
            view_mode := ViewMode.AllJobs,
            squeue_args := st.original_squeue_args }) with
        selected := some 0 }

/-- `u16::saturating_add` on the scroll offset (`job_output_offset: u16`). -/
def satAdd16 (a b : Nat) : Nat := min (a + b) 65535

/-- The non-dialog key dispatch of `App::handle` (`src/app.rs` 280-366). -/
def handleKey (st : AppState) (k : KeyEvent) : AppState :=
  match k.code with
  | KeyCode.Char 'h' => st
  | KeyCode.Left => st
  | KeyCode.Char 'l' => st
  | KeyCode.Right => st
  | KeyCode.Char 'k' => selectPreviousJob st
  | KeyCode.Up => selectPreviousJob st
  | KeyCode.Char 'j' => selectNextJob st
  | KeyCode.Down => selectNextJob st
  | KeyCode.PageDown =>
    let delta := if k.hasMod then 50 else 1
    match st.job_output_anchor with
    | ScrollAnchor.Top =>
      { st with job_output_offset := satAdd16 st.job_output_offset delta }
    | ScrollAnchor.Bottom =>
      { st with job_output_offset := st.job_output_offset - delta }
  | KeyCode.PageUp =>
    let delta := if k.hasMod then 50 else 1
    match st.job_output_anchor with
    | ScrollAnchor.Top =>
      { st with job_output_offset := st.job_output_offset - delta }
    | ScrollAnchor.Bottom =>
      { st with job_output_offset := satAdd16 st.job_output_offset delta }
  | KeyCode.Home =>
    { st with job_output_offset := 0, job_output_anchor := ScrollAnchor.Top }
  | KeyCode.End =>
    { st with job_output_offset := 0, job_output_anchor := ScrollAnchor.Bottom }
  | KeyCode.Char 'c' =>
    match st.selected.bind fun i => (st.display_jobs.get? i).map DisplayJob.id with
    | some id => { st with dialog := some (Dialog.ConfirmCancelJob id) }
    | none => st
  | KeyCode.Char 'o' =>
    { st with output_file_view :=
        match st.output_file_view with
        | OutputFileView.Stdout => OutputFileView.Stderr
        | OutputFileView.Stderr => OutputFileView.Stdout }
  | KeyCode.Char 'w' => { st with job_output_wrap := !st.job_output_wrap }
  | KeyCode.Enter => enter_array_job st
  | KeyCode.Esc =>
    match st.view_mode with
    | ViewMode.ArrayJobDetails _ => exit_array_job st
    | ViewMode.AllJobs => st
  | KeyCode.Char _ => st
  | KeyCode.Other => st

/-- The dialog branch of `App::handle` (`src/app.rs` 261-278): `Enter` and
`'y'` confirm — spawning `scancel` for the dialog's payload, an external
effect — and close the dialog; `Esc` dismisses it; every other key does
nothing. -/
def handleDialogKey (st : AppState) (k : KeyEvent) : AppState :=
  if k.code = KeyCode.Enter ∨ k.code = KeyCode.Char 'y' then { st with dialog := none }
  else if k.code = KeyCode.Esc then { st with dialog := none }
  else st

/-- The file-watcher target recomputed at the end of every `App::handle`
(`src/app.rs` 371-378): the selected row's stdout or stderr path. -/
def computeFileTarget (st : AppState) : Option String :=
  st.selected.bind fun i =>
    (st.display_jobs.get? i).bind fun j =>
      match st.output_file_view with
      | OutputFileView.Stdout => j.stdout
      | OutputFileView.Stderr => j.stderr

/-- `App::handle` (`src/app.rs` 252-379). -/
def handle (st : AppState) (msg : AppMessage) : AppState :=
  let st' := match msg with
    | AppMessage.Jobs jobs =>
      updateScrollbar (updateDisplayJobs { st with jobs := jobs })
    | AppMessage.JobOutput content => { st with job_output := content }
    | AppMessage.Key k =>
      match st.dialog with
      | some _ => handleDialogKey st k
      | none => handleKey st k
  { st' with file_target := computeFileTarget st' }

/-- The key dispatch of the `App::run` event loop (`src/app.rs` 204-213):
`'q'` returns from `run` immediately — before, and regardless of, any open
dialog — and every other key event is forwarded to `App::handle`.  `none`
models quitting. -/
def keyStep (st : AppState) (k : KeyEvent) : Option AppState :=
  if k.code = KeyCode.Char 'q' then none
  else some (handle st (AppMessage.Key k))

/-- `App::new` (`src/app.rs` 139-181) restricted to the modelled fields:
selection starts at row 0, anchor `Bottom`, wrap off, empty output; the
queue watcher is constructed with `squeue_args` and the same list is saved
as `original_squeue_args`; the file watcher starts with no target. -/
def appNew (squeue_args : List String) : AppState :=
  { dialog := none, view_mode := ViewMode.AllJobs, jobs := [], display_jobs := [],
    original_squeue_args := squeue_args, selected := some 0,
    scrollbar_content_length := 0, scrollbar_position := 0,
    job_output := Except.ok "", job_output_anchor := ScrollAnchor.Bottom,
    job_output_offset := 0, job_output_wrap := false,
    output_file_view := OutputFileView.Stdout, squeue_args := squeue_args,
    file_target := none }

/-- Test fixture: the standalone job `{id=3, array=200, step=None}` of the
spec's aggregation example. -/
def jobB : Job :=
  { job_id := "3", array_id := "200", array_step := none, name := "n3", state := "R",
    state_compact := "R", reason := none, user := "u", time := "t", tres := "",
    partition := "p", nodelist := "", stdout := none, stderr := none, command := "c3" }

/-- A state whose selection index (5) is far past any display row. -/
def staleSelState : AppState := { appNew [] with selected := some 5 }

/-- C3 counterexample: after a job-set message that produces a non-empty
display list of length 1, the selection index is still 5 — `App::handle`
never clamps it into the new bounds (nothing in the `Jobs` arm touches
`job_list_state`). -/
theorem selection_not_clamped_counterexample :
    (handle staleSelState (AppMessage.Jobs [jobB])).display_jobs.length = 1
    ∧ (handle staleSelState (AppMessage.Jobs [jobB])).selected = some 5
    ∧ ¬ ((handle staleSelState (AppMessage.Jobs [jobB])).selected.getD 0
        ≤ (handle staleSelState (AppMessage.Jobs [jobB])).display_jobs.length - 1) := by
  refine ⟨?_, ?_, ?_⟩ <;> decide

/-- C3 (amended). Across a job-set recomputation (no view-mode transition)
the selection index is left entirely unchanged: it is preserved when still
in range, but it is *not* clamped — when the new display list is shorter it
simply stays out of range.  The display list itself is recomputed from the
new job set and the current view mode. -/
theorem selection_preserved_on_jobs (st : AppState) (jobs : List Job) :
    (handle st (AppMessage.Jobs jobs)).selected = st.selected
    ∧ (handle st (AppMessage.Jobs jobs)).display_jobs = project jobs st.view_mode := by
  exact ⟨rfl, rfl⟩

/-- A state showing the cancel-confirmation dialog. -/
def dialogState : AppState :=
  { appNew [] with dialog := some (Dialog.ConfirmCancelJob "3") }

/-- C4 counterexample: with a dialog present, `'q'` — neither a confirm key
nor the dismiss key — is *not* without effect: the run loop quits
(modelled as `none`) before the dialog can capture the key
(`src/app.rs` 207 precedes the dialog check in `App::handle`). -/
theorem dialog_does_not_capture_q :
    keyStep dialogState { code := KeyCode.Char 'q', hasMod := false } = none
    ∧ ¬ keyStep dialogState { code := KeyCode.Char 'q', hasMod := false }
        = some dialogState := by
  exact ⟨rfl, by decide⟩

/-- C4 (amended). While a dialog is present, every key other than the
confirm keys (`Enter`, `'y'`), the dismiss key (`Esc`) *and the global quit
key `'q'`* has no effect: provided the file-watcher target already equals
the one derived from the current state (the invariant `App::handle`
re-establishes at its end), the state after the key event is exactly the
prior state and the app does not quit.  `'q'`, however, quits even while
the dialog is shown. -/
theorem dialog_captures_other_keys (st : AppState) (k : KeyEvent) (d : Dialog)
    (hd : st.dialog = some d)
    (h1 : ¬ k.code = KeyCode.Enter) (h2 : ¬ k.code = KeyCode.Char 'y')
    (h3 : ¬ k.code = KeyCode.Esc) (h4 : ¬ k.code = KeyCode.Char 'q')
    (ht : st.file_target = computeFileTarget st) :
    keyStep st k = some st := by
  unfold keyStep
  rw [if_neg h4]
  have hdk : handleDialogKey st k = st := by
    unfold handleDialogKey
    rw [if_neg (by tauto), if_neg h3]
  have hcore : handle st (AppMessage.Key k) = st := by
    simp only [handle, hd, hdk]
    rw [← ht, ← hd]
  rw [hcore]

/-- Witness for `dialog_captures_other_keys`: an `'x'` keypress leaves the
dialog-showing state untouched. -/
theorem dialog_captures_other_keys_witness :
    keyStep dialogState { code := KeyCode.Char 'x', hasMod := false }
      = some dialogState :=
  dialog_captures_other_keys dialogState { code := KeyCode.Char 'x', hasMod := false }
    (Dialog.ConfirmCancelJob "3") rfl (by decide) (by decide) (by decide) (by decide)
    (by decide)

theorem enter_preserves_original (st : AppState) :
    (enter_array_job st).original_squeue_args = st.original_squeue_args := by
  rcases hsel : st.selected with _ | i
  · simp [enter_array_job, hsel]
  · rcases hget : st.display_jobs[i]? with _ | dj
    · simp [enter_array_job, hsel, hget]
    · by_cases h : dj.is_array = true
      · simp [enter_array_job, hsel, hget, h, updateScrollbar, updateDisplayJobs]
      · simp [enter_array_job, hsel, hget, h]

/-- C8. View-transition round trip: for every prior state, drilling in via
`enter_array_job` and exiting via `exit_array_job` leaves the queue
watcher's query arguments equal to `original_squeue_args` — the argument
list supplied at construction, as `App::new` records it — resets the
selection index to row 0, and returns the view to `AllJobs`. -/
theorem enter_exit_round_trip (st : AppState) (args : List String) :
    (exit_array_job (enter_array_job st)).squeue_args = st.original_squeue_args
    ∧ (exit_array_job (enter_array_job st)).selected = some 0
    ∧ (exit_array_job (enter_array_job st)).view_mode = ViewMode.AllJobs
    ∧ (appNew args).squeue_args = args
    ∧ (appNew args).original_squeue_args = args := by
  refine ⟨?_, rfl, rfl, rfl, rfl⟩
  have h : ∀ s : AppState, (exit_array_job s).squeue_args = s.original_squeue_args :=
    fun s => rfl
  rw [h, enter_preserves_original]

theorem collapsedRow_eq_none_iff (jobs : List Job) (k : String) :
    collapsedRow jobs k = none
      ↔ jobs.filter (fun j => j.isArrayTask && j.array_id == k) = [] := by
  unfold collapsedRow
  split <;> simp_all

theorem collapsedRow_fields {jobs : List Job} {k : String} {d : DisplayJob}
    (h : collapsedRow jobs k = some d) :
    d.is_array = true ∧ d.array_id = k
      ∧ d.task_count
        = some (jobs.filter fun j => j.isArrayTask && j.array_id == k).length := by
  unfold collapsedRow at h
  split at h
  · simp at h
  · rename_i fj rest heq
    rw [Option.some.injEq] at h
    subst h
    refine ⟨rfl, rfl, ?_⟩
    rw [heq]
    simp

theorem firstSeen_nodup : ∀ l : List String, (firstSeen l).Nodup
  | [] => List.nodup_nil
  | x :: xs => by
    show (x :: ((firstSeen xs).filter fun y => decide (y ≠ x))).Nodup
    refine List.nodup_cons.mpr ⟨?_, (firstSeen_nodup xs).filter _⟩
    intro hmem
    have := List.of_mem_filter hmem
    simp at this

theorem mem_firstSeen : ∀ (l : List String) (a : String), a ∈ firstSeen l ↔ a ∈ l
  | [], _ => Iff.rfl
  | x :: xs, a => by
    show a ∈ x :: ((firstSeen xs).filter fun y => decide (y ≠ x)) ↔ a ∈ x :: xs
    by_cases hax : a = x
    · subst hax
      simp
    · simp only [List.mem_cons, List.mem_filter]
      constructor
      · rintro (rfl | ⟨h, _⟩)
        · exact Or.inl rfl
        · exact Or.inr ((mem_firstSeen xs a).mp h)
      · rintro (rfl | h)
        · exact Or.inl rfl
        · exact Or.inr ⟨(mem_firstSeen xs a).mpr h, by simp [hax]⟩

theorem filterMap_collapsed_map_id (jobs : List Job) :
    ∀ keys : List String,
      (∀ k ∈ keys, ∃ j ∈ jobs, j.isArrayTask = true ∧ j.array_id = k) →
      ((keys.filterMap (collapsedRow jobs)).map fun d => d.array_id) = keys
  | [], _ => rfl
  | k :: ks, hk => by
    have hex := hk k (List.mem_cons_self k ks)
    rcases hex with ⟨j, hjmem, hj1, hj2⟩
    have hne : ¬ jobs.filter (fun j => j.isArrayTask && j.array_id == k) = [] := by
      intro hnil
      have hmem : j ∈ jobs.filter fun j => j.isArrayTask && j.array_id == k := by
        rw [List.mem_filter]
        refine ⟨hjmem, ?_⟩
        simp [hj1, hj2]
      rw [hnil] at hmem
      exact List.not_mem_nil j hmem
    rcases hd : collapsedRow jobs k with _ | d
    · exact absurd ((collapsedRow_eq_none_iff jobs k).mp hd) hne
    · rw [List.filterMap_cons_some hd]
      simp only [List.map_cons]
      rw [(collapsedRow_fields hd).2.1,
        filterMap_collapsed_map_id jobs ks fun x hx => hk x (List.mem_cons_of_mem _ hx)]

theorem project_alljobs_filter_standalone (jobs : List Job) :
    ((project jobs ViewMode.AllJobs).filter fun d => !d.is_array)
      = (jobs.filter fun j => !j.isArrayTask).map mkStandalone := by
  simp only [project]
  rw [List.filter_append]
  have h1 : ((jobs.filter fun j => !j.isArrayTask).map mkStandalone).filter
      (fun d => !d.is_array) = (jobs.filter fun j => !j.isArrayTask).map mkStandalone := by
    rw [List.filter_eq_self]
    intro d hd
    rcases List.mem_map.mp hd with ⟨j, _, rfl⟩
    rfl
  have h2 : ((firstSeen ((jobs.filter fun j => j.isArrayTask).map
        fun j => j.array_id)).filterMap (collapsedRow jobs)).filter
      (fun d => !d.is_array) = [] := by
    rw [List.filter_eq_nil_iff]
    intro d hd
    rcases List.mem_filterMap.mp hd with ⟨k, _, hk⟩
    simp [(collapsedRow_fields hk).1]
  rw [h1, h2, List.append_nil]

theorem project_alljobs_filter_collapsed (jobs : List Job) :
    ((project jobs ViewMode.AllJobs).filter fun d => d.is_array)
      = (firstSeen ((jobs.filter fun j => j.isArrayTask).map
          fun j => j.array_id)).filterMap (collapsedRow jobs) := by
  simp only [project]
  rw [List.filter_append]
  have h1 : ((jobs.filter fun j => !j.isArrayTask).map mkStandalone).filter
      (fun d => d.is_array) = [] := by
    rw [List.filter_eq_nil_iff]
    intro d hd
    rcases List.mem_map.mp hd with ⟨j, _, rfl⟩
    simp [mkStandalone]
  have h2 : ((firstSeen ((jobs.filter fun j => j.isArrayTask).map
        fun j => j.array_id)).filterMap (collapsedRow jobs)).filter
      (fun d => d.is_array)
      = (firstSeen ((jobs.filter fun j => j.isArrayTask).map
          fun j => j.array_id)).filterMap (collapsedRow jobs) := by
    rw [List.filter_eq_self]
    intro d hd
    rcases List.mem_filterMap.mp hd with ⟨k, _, hk⟩
    exact (collapsedRow_fields hk).1
  rw [h1, h2, List.nil_append]

theorem filterMap_collapsed_countP (jobs : List Job) (keys : List String) (id : String)
    (hnd : keys.Nodup)
    (hkeys : ∀ k ∈ keys, ∃ j ∈ jobs, j.isArrayTask = true ∧ j.array_id = k) :
    ((keys.filterMap (collapsedRow jobs)).countP fun d => d.array_id == id)
      = if id ∈ keys then 1 else 0 := by
  have hmap := filterMap_collapsed_map_id jobs keys hkeys
  have hcnt : ((keys.filterMap (collapsedRow jobs)).countP fun d => d.array_id == id)
      = keys.countP fun s => s == id := by
    conv_rhs => rw [← hmap]
    rw [List.countP_map]
    rfl
  rw [hcnt]
  by_cases hid : id ∈ keys
  · rw [if_pos hid]
    exact List.count_eq_one_of_mem hnd hid
  · rw [if_neg hid]
    exact List.count_eq_zero_of_not_mem hid

/-- Test fixture: `{id=1, array=100, step=1}` of the spec's aggregation
example. -/
def jobA1 : Job :=
  { job_id := "1", array_id := "100", array_step := some "1", name := "n1", state := "R",
    state_compact := "R", reason := none, user := "u", time := "t", tres := "",
    partition := "p", nodelist := "", stdout := none, stderr := none, command := "c1" }

/-- Test fixture: `{id=2, array=100, step=2}`. -/
def jobA2 : Job := { jobA1 with job_id := "2", array_step := some "2" }

/-- The collapsed display row the aggregator produces for array `100` of the
fixture jobs. -/
def collapsed100 : DisplayJob :=
  { job_id := "100", array_id := "100", name := "n1", state := "R", state_compact := "R",
    reason := none, user := "u", time := "t", tres := "", partition := "p",
    nodelist := "", command := "c1", is_array := true, task_count := some 2,
    stdout := none, stderr := none }

/-- C7. The job aggregator: in `AllJobs` mode the non-collapsed rows are
exactly the jobs without an array-task index, 1:1 in input order; among the
collapsed rows there is exactly one row per distinct array identifier
carried by some array task (counted order-insensitively, since the code's
`HashMap` iteration order is unspecified), each with `task_count` the size
of its group; in `ArrayJobDetails id` mode the rows are exactly the array
tasks of `id` in input order, all non-collapsed.  On the spec's fixture
`{id=1,array=100,step=1}, {id=2,array=100,step=2}, {id=3,array=200,step=None}`:
one standalone row for job 3 and one collapsed row for array 100 with
`task_count = 2`, and drill-down on `"100"` yields exactly the two task
rows. -/
theorem project_aggregation (jobs : List Job) (id : String) :
    (((project jobs ViewMode.AllJobs).filter fun d => !d.is_array)
        = (jobs.filter fun j => !j.isArrayTask).map mkStandalone)
    ∧ ((((project jobs ViewMode.AllJobs).filter fun d => d.is_array).countP
          fun d => d.array_id == id)
        = if (jobs.any fun j => j.isArrayTask && j.array_id == id) then 1 else 0)
    ∧ (∀ d ∈ (project jobs ViewMode.AllJobs).filter fun d => d.is_array,
        d.task_count
          = some (jobs.filter fun j => j.isArrayTask && j.array_id == d.array_id).length)
    ∧ (((project jobs (ViewMode.ArrayJobDetails id)).map fun d => d.job_id)
        = (jobs.filter fun j => j.isArrayTask && j.array_id == id).map fun j => j.job_id)
    ∧ (∀ d ∈ project jobs (ViewMode.ArrayJobDetails id),
        d.is_array = false ∧ d.task_count = none)
    ∧ ((project [jobA1, jobA2, jobB] ViewMode.AllJobs).map
          (fun d => (d.job_id, d.is_array, d.task_count))
        = [("3", false, none), ("100", true, some 2)])
    ∧ ((project [jobA1, jobA2, jobB] (ViewMode.ArrayJobDetails "100")).map
          (fun d => (d.job_id, d.is_array))
        = [("1", false), ("2", false)]) := by
  refine ⟨project_alljobs_filter_standalone jobs, ?_, ?_, ?_, ?_, by decide, by decide⟩
  · rw [project_alljobs_filter_collapsed]
    have hkeys : ∀ k ∈ firstSeen ((jobs.filter fun j => j.isArrayTask).map
        fun j => j.array_id), ∃ j ∈ jobs, j.isArrayTask = true ∧ j.array_id = k := by
      intro k hk
      rw [mem_firstSeen] at hk
      rcases List.mem_map.mp hk with ⟨j, hjf, rfl⟩
      rcases List.mem_filter.mp hjf with ⟨hjm, hjp⟩
      exact ⟨j, hjm, hjp, rfl⟩
    rw [filterMap_collapsed_countP jobs _ id (firstSeen_nodup _) hkeys]
    have hiff : id ∈ firstSeen ((jobs.filter fun j => j.isArrayTask).map
        fun j => j.array_id)
        ↔ (jobs.any fun j => j.isArrayTask && j.array_id == id) = true := by
      rw [mem_firstSeen, List.any_eq_true]
      constructor
      · intro h
        rcases List.mem_map.mp h with ⟨j, hjf, rfl⟩
        rcases List.mem_filter.mp hjf with ⟨hjm, hjp⟩
        exact ⟨j, hjm, by simp [hjp]⟩
      · rintro ⟨j, hjm, hjp⟩
        simp only [Bool.and_eq_true, beq_iff_eq] at hjp
        exact List.mem_map.mpr ⟨j, List.mem_filter.mpr ⟨hjm, hjp.1⟩, hjp.2⟩
    exact if_congr hiff rfl rfl
  · intro d hd
    rw [project_alljobs_filter_collapsed] at hd
    rcases List.mem_filterMap.mp hd with ⟨k, _, hk⟩
    have hf := collapsedRow_fields hk
    rw [hf.2.1]
    exact hf.2.2
  · simp only [project]
    rw [List.map_map]
    rfl
  · intro d hd
    simp only [project] at hd
    rcases List.mem_map.mp hd with ⟨j, _, rfl⟩
    exact ⟨rfl, rfl⟩

/-- Witness for `project_aggregation` on the fixture jobs. -/
theorem project_aggregation_witness :
    collapsed100.task_count
      = some (([jobA1, jobA2, jobB].filter fun j =>
          j.isArrayTask && j.array_id == collapsed100.array_id).length)
    ∧ ((mkStandalone jobA1).is_array = false ∧ (mkStandalone jobA1).task_count = none) :=
  ⟨(project_aggregation [jobA1, jobA2, jobB] "100").2.2.1 collapsed100 (by decide),
   (project_aggregation [jobA1, jobA2, jobB] "100").2.2.2.2.1 (mkStandalone jobA1)
     (by decide)⟩

end Turf
